import Mathlib

/-!
Verification of the equilibrium-system builder/solver demonstrated by
`examples/Ammonia.ipynb` (two coupled equilibria: protolysis of ammonia in
water).  The notebook is the only source file of the repository; the chemistry
library it drives (`chempy.chemistry.Species`, `chempy.chemistry.Equilibrium`,
`chempy.equilibria.EqSystem`, `NumSysLin` / `NumSysLog` / `NumSysSquare`) is
not part of the sources, so those operations are modelled from the
specification, faithful to its words, and the concrete data (species, initial
concentrations, equilibrium constants) is taken from the notebook cells.

Machine reals of the numeric solver are embedded as exact reals `ℝ`;
the discrete parts (formula parsing, stoichiometry, composition matrices,
row reduction of the conservation basis) are executable over `ℕ`, `ℤ`, `ℚ`.
-/

namespace ChempyAmmonia

/-! ### Formula parsing

Modelled from the spec: `Species.from_formula` ("Parse species: input a
formula string; output a Species with derived composition and charge; fails
... when the formula is not decomposable into known element symbols and
charge suffixes").  The parser itself is not among the sources; it is
reconstructed here: a formula is a sequence of element tokens (an upper-case
letter, optional lower-case continuation, optional decimal count) followed by
a charge suffix made of trailing `+` or `-` signs. -/

structure Species where
  name : String
  composition : List (String × ℕ)
  charge : ℤ
deriving DecidableEq

/-- Number of leading occurrences of the character `c`. -/
def countLeading (c : Char) : List Char → ℕ
  | [] => 0
  | d :: rest => if d = c then countLeading c rest + 1 else 0

/-- Split a trailing charge suffix (`+`, `++`, `-`, ...) off a formula,
returning the signed charge and the remaining characters. -/
def chargeSuffix (cs : List Char) : ℤ × List Char :=
  let r := cs.reverse
  let p := countLeading '+' r
  if 0 < p then ((p : ℤ), (r.drop p).reverse)
  else
    let m := countLeading '-' r
    (-(m : ℤ), (r.drop m).reverse)

/-- State of the element-token scanner: finished tokens, pending element
symbol, pending digits of its count, and a validity flag. -/
structure ParseState where
  done : List (String × ℕ)
  sym : List Char
  digits : List Char
  ok : Bool

/-- Value of a list of decimal digit characters. -/
def digitsVal (ds : List Char) : ℕ :=
  ds.foldl (fun a d => 10 * a + (d.toNat - 48)) 0

/-- Close the pending element token (a missing count means 1). -/
def flushSym (st : ParseState) : List (String × ℕ) :=
  if st.sym.isEmpty then st.done
  else st.done ++ [(String.mk st.sym, if st.digits.isEmpty then 1 else digitsVal st.digits)]

/-- One step of the element-token scanner. -/
def stepChar (st : ParseState) (c : Char) : ParseState :=
  if c.isUpper then
    { done := flushSym st, sym := [c], digits := [], ok := st.ok }
  else if c.isLower then
    if st.sym.isEmpty || !st.digits.isEmpty then { st with ok := false }
    else { st with sym := st.sym ++ [c] }
  else if c.isDigit then
    if st.sym.isEmpty then { st with ok := false }
    else { st with digits := st.digits ++ [c] }
  else { st with ok := false }

/-- Parse the element part of a formula into composition pairs. -/
def parseComp (cs : List Char) : Option (List (String × ℕ)) :=
  let st := cs.foldl stepChar ⟨[], [], [], true⟩
  if st.ok then some (flushSym st) else none

/-- Modelled from the spec: `Species.from_formula` — parse a formula string
into a `Species` with derived composition and charge; `none` is the
ParseError of the spec. -/
def Species.from_formula (s : String) : Option Species :=
  let pr := chargeSuffix s.toList
  match parseComp pr.2 with
  | some comp => some ⟨s, comp, pr.1⟩
  | none => none

/-- Count of element `el` in a species (summing repeated tokens). -/
def Species.compCount (sp : Species) (el : String) : ℕ :=
  ((sp.composition.filter (fun p => p.1 = el)).map (fun p => p.2)).sum

/-- The five species of the notebook, in its fixed order. -/
def substanceNames : List String := ["H+", "OH-", "NH4+", "NH3", "H2O"]

/-- The parsed species of the notebook (cell `subst = {n: Species.from_formula(n) ...}`). -/
def substList : List Species := substanceNames.filterMap Species.from_formula

/-- Claim C10: parsing the formula strings `H+`, `OH-`, `NH4+`, `NH3`, `H2O`
with `Species.from_formula` yields species whose net charges are exactly
1, -1, 1, 0, 0 respectively, so the notebook's assertion on parsed charges
holds. -/
theorem claimC10_parsed_charges :
    (substanceNames.map (fun n => (Species.from_formula n).map Species.charge)) =
      [some 1, some (-1), some 1, some 0, some 0] := by
  decide

/-! ### Equilibria and the stoichiometry matrix

Modelled from the spec: `Equilibrium` is "a pair of multisets (mapping from
Species to positive integer stoichiometric coefficient) — reactants and
products — plus a ... equilibrium constant"; the stoichiometry matrix has
entry (r, s) = net coefficient of species s in reaction r, "products
positive, reactants negative".  The concrete equilibria are the notebook's
`w_autop` and `NH4p_pr`. -/

structure Equil where
  reac : List (String × ℕ)
  prod : List (String × ℕ)
  param : ℝ

/-- Coefficient of the species named `nm` on one side of an equilibrium. -/
def coeffOf (side : List (String × ℕ)) (nm : String) : ℕ :=
  ((side.filter (fun p => p.1 = nm)).map (fun p => p.2)).sum

/-- Row of the stoichiometry matrix for one equilibrium, over the given
species ordering: products positive, reactants negative. -/
def stoichRow (species : List Species) (eq : Equil) : List ℤ :=
  species.map (fun sp => (coeffOf eq.prod sp.name : ℤ) - (coeffOf eq.reac sp.name : ℤ))

/-- Elemental-composition vector of element `el` over the species ordering. -/
def compVec (species : List Species) (el : String) : List ℤ :=
  species.map (fun sp => (sp.compCount el : ℤ))

/-- Charge vector over the species ordering. -/
def chargeVec (species : List Species) : List ℤ :=
  species.map (fun sp => sp.charge)

/-- Integer dot product of two coefficient vectors. -/
def dotZ (a b : List ℤ) : ℤ := (List.zipWith (· * ·) a b).sum

/-- Total count of element `el` on one side of an equilibrium. -/
def sideElemCount (species : List Species) (side : List (String × ℕ)) (el : String) : ℤ :=
  (species.map (fun sp => (coeffOf side sp.name : ℤ) * (sp.compCount el : ℤ))).sum

/-- Total charge of one side of an equilibrium. -/
def sideCharge (species : List Species) (side : List (String × ℕ)) : ℤ :=
  (species.map (fun sp => (coeffOf side sp.name : ℤ) * sp.charge)).sum

/-- Validity of an equilibrium (spec: "elemental composition and charge must
balance between reactant and product sides"), relative to the element
symbols in `els`. -/
def balancedOn (species : List Species) (els : List String) (eq : Equil) : Prop :=
  (∀ el ∈ els, sideElemCount species eq.reac el = sideElemCount species eq.prod el) ∧
    sideCharge species eq.reac = sideCharge species eq.prod

lemma dotZ_map_map {α : Type} (l : List α) (f g : α → ℤ) :
    dotZ (l.map f) (l.map g) = (l.map (fun x => f x * g x)).sum := by
  induction l with
  | nil => rfl
  | cons a t ih =>
    simp only [List.map_cons, List.zipWith_cons_cons, List.sum_cons, dotZ] at ih ⊢
    rw [ih]

lemma sum_map_sub {α : Type} (l : List α) (f g : α → ℤ) :
    (l.map (fun x => f x - g x)).sum = (l.map f).sum - (l.map g).sum := by
  induction l with
  | nil => rfl
  | cons a t ih =>
    simp only [List.map_cons, List.sum_cons, ih]
    ring

/-- Claim C2: for every valid (balanced) equilibrium, the corresponding row
of the stoichiometry matrix is orthogonal to every elemental-composition
vector and to the charge vector. -/
theorem claimC2_stoich_row_conservation (species : List Species) (els : List String)
    (eq : Equil) (h : balancedOn species els eq) :
    (∀ el ∈ els, dotZ (stoichRow species eq) (compVec species el) = 0) ∧
      dotZ (stoichRow species eq) (chargeVec species) = 0 := by
  obtain ⟨helem, hch⟩ := h
  constructor
  · intro el hel
    have hd := dotZ_map_map species
      (fun sp => (coeffOf eq.prod sp.name : ℤ) - (coeffOf eq.reac sp.name : ℤ))
      (fun sp => (sp.compCount el : ℤ))
    rw [stoichRow, compVec, hd]
    have : (species.map (fun sp =>
        ((coeffOf eq.prod sp.name : ℤ) - (coeffOf eq.reac sp.name : ℤ)) * (sp.compCount el : ℤ))).sum
        = sideElemCount species eq.prod el - sideElemCount species eq.reac el := by
      rw [sideElemCount, sideElemCount, ← sum_map_sub]
      have hfun : (fun sp : Species =>
          ((coeffOf eq.prod sp.name : ℤ) - (coeffOf eq.reac sp.name : ℤ)) * (sp.compCount el : ℤ))
          = (fun sp : Species =>
          (coeffOf eq.prod sp.name : ℤ) * (sp.compCount el : ℤ) -
            (coeffOf eq.reac sp.name : ℤ) * (sp.compCount el : ℤ)) := by
        funext sp
        ring
      rw [hfun]
    rw [this, helem el hel, sub_self]
  · have hd := dotZ_map_map species
      (fun sp => (coeffOf eq.prod sp.name : ℤ) - (coeffOf eq.reac sp.name : ℤ))
      (fun sp => sp.charge)
    rw [stoichRow, chargeVec, hd]
    have : (species.map (fun sp =>
        ((coeffOf eq.prod sp.name : ℤ) - (coeffOf eq.reac sp.name : ℤ)) * sp.charge)).sum
        = sideCharge species eq.prod - sideCharge species eq.reac := by
      rw [sideCharge, sideCharge, ← sum_map_sub]
      have hfun : (fun sp : Species =>
          ((coeffOf eq.prod sp.name : ℤ) - (coeffOf eq.reac sp.name : ℤ)) * sp.charge)
          = (fun sp : Species =>
          (coeffOf eq.prod sp.name : ℤ) * sp.charge - (coeffOf eq.reac sp.name : ℤ) * sp.charge) := by
        funext sp
        ring
      rw [hfun]
    rw [this, hch, sub_self]

/-- The water-autoprotolysis constant of the notebook, `10**-14/H2O_c` with
`H2O_c = 55.5`. -/
noncomputable def KwR : ℝ := 1e-14 / 55.5

/-- The ammonium-protonation constant of the notebook, `10**-9.26`. -/
noncomputable def KaR : ℝ := (10 : ℝ) ^ (-9.26 : ℝ)

/-- The water-autoprotolysis equilibrium of the notebook:
`Equilibrium({'H2O': 1}, {'H+': 1, 'OH-': 1}, 10**-14/55.5)`. -/
noncomputable def wAutop : Equil :=
  ⟨[("H2O", 1)], [("H+", 1), ("OH-", 1)], KwR⟩

/-- The ammonium-protonation equilibrium of the notebook:
`Equilibrium({'NH4+': 1}, {'H+': 1, 'NH3': 1}, 10**-9.26)`. -/
noncomputable def NH4pPr : Equil :=
  ⟨[("NH4+", 1)], [("H+", 1), ("NH3", 1)], KaR⟩

/-- Witness for C2: both notebook equilibria are balanced over the elements
H, N, O of the parsed species, and their stoichiometry rows are orthogonal
to the composition vectors and the charge vector. -/
theorem claimC2_witness :
    (balancedOn substList ["H", "N", "O"] wAutop ∧
      balancedOn substList ["H", "N", "O"] NH4pPr) ∧
    ((∀ el ∈ ["H", "N", "O"], dotZ (stoichRow substList wAutop) (compVec substList el) = 0) ∧
        dotZ (stoichRow substList wAutop) (chargeVec substList) = 0) ∧
    ((∀ el ∈ ["H", "N", "O"], dotZ (stoichRow substList NH4pPr) (compVec substList el) = 0) ∧
        dotZ (stoichRow substList NH4pPr) (chargeVec substList) = 0) := by
  refine ⟨⟨?_, ?_⟩, ?_, ?_⟩
  · constructor
    · decide
    · decide
  · constructor
    · decide
    · decide
  · exact claimC2_stoich_row_conservation substList ["H", "N", "O"] wAutop ⟨by decide, by decide⟩
  · exact claimC2_stoich_row_conservation substList ["H", "N", "O"] NH4pPr ⟨by decide, by decide⟩

/-! ### Conservation-law basis and residual dimension

Modelled from the spec: "Derive conservation vectors: compute the left null
space of the stoichiometry matrix (or an equivalent basis) ...; optionally
reduce this basis to row-echelon form"; the basis is obtained from the
composition balance vectors (charge row plus one row per element, as in the
notebook's `eqsys.composition_balance_vectors()`), row-reduced so that an
independent set remains.  "Build residual function: ... a residual vector
combining (a) one equation per independent equilibrium ... and (b) one
equation per conservation law"; its length "must equal the number of
unknowns (square system)". -/

/-- Eliminate the leading entry of `r` using the pivot row `piv` by
fraction-free cross-multiplication (`piv` and `r` are a head and a tail). -/
def elimRow (pivHead : ℤ) (pivTail : List ℤ) (r : List ℤ) : List ℤ :=
  match r with
  | [] => []
  | a :: rest => List.zipWith (fun x p => pivHead * x - a * p) rest pivTail

/-- Row-echelon reduction of an integer matrix, by recursion on the column
count `w` (each step consumes one column).  Rows are kept fraction-free
(pivots are not scaled to 1), which yields an equivalent basis as the spec
allows ("or an equivalent basis"). -/
def echelonStep (w : ℕ) (rows : List (List ℤ)) : List (List ℤ) :=
  match w with
  | 0 => rows
  | w' + 1 =>
    match rows.partition (fun r => r.headD 0 ≠ 0) with
    | ([], _) =>
      (echelonStep w' (rows.map (fun r => r.tail))).map (fun r => (0 : ℤ) :: r)
    | (p :: ps, zs) =>
      let rest := (ps ++ zs).map (elimRow (p.headD 0) p.tail)
      p :: (echelonStep w' rest).map (fun r => (0 : ℤ) :: r)

/-- Row-echelon form of a matrix given as a list of equal-length rows. -/
def rowEchelon (rows : List (List ℤ)) : List (List ℤ) :=
  echelonStep ((rows.headD []).length) rows

/-- The nonzero rows of the row-echelon form: an independent spanning subset
of the input rows' span. -/
def nonzeroRows (rows : List (List ℤ)) : List (List ℤ) :=
  rows.filter (fun r => r.any (fun a => a ≠ 0))

/-- Charge row of the composition balance matrix. -/
def chargeRowZ (species : List Species) : List ℤ :=
  species.map (fun sp => sp.charge)

/-- The element symbols occurring in a species list, first occurrences first. -/
def elementsOf (species : List Species) : List String :=
  (species.flatMap (fun sp => sp.composition.map (fun p => p.1))).dedup

/-- Composition balance matrix: the charge vector and one composition vector
per element (the notebook's `eqsys.composition_balance_vectors()`). -/
def compMatrixOf (species : List Species) : List (List ℤ) :=
  chargeRowZ species ::
    (elementsOf species).map (fun el => species.map (fun sp => (sp.compCount el : ℤ)))

/-- A chemical system: species, equilibria and initial concentrations. -/
structure EqSystemL where
  species : List Species
  eqs : List Equil
  init : List ℝ

/-- The conservation-law vectors of a system: nonzero rows of the row-reduced
composition balance matrix. -/
def conservVecs (sys : EqSystemL) : List (List ℤ) :=
  nonzeroRows (rowEchelon (compMatrixOf sys.species))

/-- The three variable transforms offered by the numerical systems
`NumSysLin`, `NumSysLog`, `NumSysSquare`. -/
inductive TransformKind
  | lin
  | logT
  | sqr
deriving DecidableEq

/-- Product `∏ y_i ^ e_i` over a concentration list (`ℕ` exponents). -/
def prodPowL (y : List ℝ) (e : List ℕ) : ℝ :=
  (List.zipWith (fun a n => a ^ n) y e).prod

/-- Dot product of an integer coefficient vector with a real vector. -/
def dotZR (r : List ℤ) (y : List ℝ) : ℝ :=
  (List.zipWith (fun a b => (a : ℝ) * b) r y).sum

/-- Mass-action residual of one equilibrium in the linear (identity)
transform: product-side monomial minus the constant times the reactant-side
monomial. -/
def massEqLin (r : List ℤ) (k : ℝ) (y : List ℝ) : ℝ :=
  prodPowL y (r.map Int.toNat) - k * prodPowL y (r.map (fun z => (-z).toNat))

/-- Residual vector of the numerical system for a transform: one equation
per equilibrium followed by one equation per conservation law (conserved
quantity at the candidate minus at the initial concentrations). -/
noncomputable def numSysResid (sys : EqSystemL) (t : TransformKind) (y : List ℝ) : List ℝ :=
  match t with
  | .lin =>
    sys.eqs.map (fun e => massEqLin (stoichRow sys.species e) e.param y) ++
      (conservVecs sys).map (fun l => dotZR l y - dotZR l sys.init)
  | .logT =>
    sys.eqs.map (fun e => dotZR (stoichRow sys.species e) y - Real.log e.param) ++
      (conservVecs sys).map (fun l => dotZR l (y.map Real.exp) - dotZR l sys.init)
  | .sqr =>
    sys.eqs.map (fun e => massEqLin (stoichRow sys.species e) e.param (y.map (fun a => a ^ 2))) ++
      (conservVecs sys).map (fun l => dotZR l (y.map (fun a => a ^ 2)) - dotZR l sys.init)

/-- Claim C8: whenever the independent equilibria together with the derived
conservation laws count up to the number of species (the spec's
well-formedness of the assembly), the residual handed to the root-finder is
square: its length equals the number of unknown concentrations, for every
variable transform. -/
theorem claimC8_residual_square (sys : EqSystemL)
    (h : sys.eqs.length + (conservVecs sys).length = sys.species.length)
    (t : TransformKind) (y : List ℝ) :
    (numSysResid sys t y).length = sys.species.length := by
  cases t <;>
    simp only [numSysResid, List.length_append, List.length_map] <;> exact h

/-- The notebook's system `EqSystem(equilibria, subst)` with the initial
concentrations of `init_conc`. -/
noncomputable def ammoniaSys : EqSystemL :=
  ⟨substList, [wAutop, NH4pPr], [1e-7, 1e-7, 1e-7, 1, 55.5]⟩

/-- The computed conservation vectors of the ammonia system: charge balance
and two element balances survive the row reduction (the O row is dependent). -/
lemma ammonia_conservVecs :
    conservVecs ammoniaSys =
      [[1, -1, 1, 0, 0], [0, 2, 3, 3, 2], [0, 0, -3, -3, 0]] := by
  decide

/-- The stoichiometry rows of the ammonia system. -/
lemma ammonia_stoichRows :
    stoichRow substList wAutop = [1, 1, 0, 0, -1] ∧
      stoichRow substList NH4pPr = [1, 0, -1, 1, 0] := by
  decide

/-- Witness for C8: the ammonia system satisfies the counting hypothesis
(2 equilibria + 3 conservation laws = 5 species), and each of the three
numerical-system residuals has exactly 5 components. -/
theorem claimC8_witness :
    (ammoniaSys.eqs.length + (conservVecs ammoniaSys).length = ammoniaSys.species.length) ∧
    (numSysResid ammoniaSys TransformKind.lin (List.replicate 5 1)).length = 5 ∧
    (numSysResid ammoniaSys TransformKind.logT (List.replicate 5 1)).length = 5 ∧
    (numSysResid ammoniaSys TransformKind.sqr (List.replicate 5 1)).length = 5 := by
  have h : ammoniaSys.eqs.length + (conservVecs ammoniaSys).length = ammoniaSys.species.length := by
    decide
  have h5 : ammoniaSys.species.length = 5 := by decide
  exact ⟨h,
    (claimC8_residual_square ammoniaSys h TransformKind.lin (List.replicate 5 1)).trans h5,
    (claimC8_residual_square ammoniaSys h TransformKind.logT (List.replicate 5 1)).trans h5,
    (claimC8_residual_square ammoniaSys h TransformKind.sqr (List.replicate 5 1)).trans h5⟩

/-! ### Exact-real model of the assembled non-linear system

A fixed-dimension view of the same construction, used to reason about the
roots the external root-finder is asked for.  The solve operation's contract
(spec: "correctly constructing the residual and correctly inverting the
variable transform on the result") makes a successful solve return a root of
this residual; machine floating point is embedded as exact reals. -/

structure EqSysModel (n m p : ℕ) where
  stoich : Fin m → Fin n → ℤ
  K : Fin m → ℝ
  laws : Fin p → Fin n → ℝ
  init : Fin n → ℝ

/-- Mass-action residual of equilibrium `r` in the identity transform:
product-side monomial minus constant times reactant-side monomial
(the `NumSysLin` equation; positive entries of the stoichiometry row are
product exponents, negated negative entries reactant exponents). -/
noncomputable def massActionLin {n m p : ℕ} (S : EqSysModel n m p) (r : Fin m)
    (y : Fin n → ℝ) : ℝ :=
  (∏ i, y i ^ (S.stoich r i).toNat) - S.K r * ∏ i, y i ^ (-S.stoich r i).toNat

/-- Conservation-law residual `q`: conserved quantity at `y` minus its value
at the initial concentrations. -/
noncomputable def consResid {n m p : ℕ} (S : EqSysModel n m p) (q : Fin p)
    (y : Fin n → ℝ) : ℝ :=
  (∑ i, S.laws q i * y i) - ∑ i, S.laws q i * S.init i

/-- `y` is an exact root of the identity-transform residual. -/
def isLinRoot {n m p : ℕ} (S : EqSysModel n m p) (y : Fin n → ℝ) : Prop :=
  (∀ r, massActionLin S r y = 0) ∧ ∀ q, consResid S q y = 0

/-- The ammonia system in the fixed-dimension view: stoichiometry rows and
conservation laws are exactly the ones computed by `stoichRow` and
`conservVecs` for `ammoniaSys` (see `ammonia_stoichRows` and
`ammonia_conservVecs`). -/
noncomputable def ammoniaR : EqSysModel 5 2 3 :=
  { stoich := ![![1, 1, 0, 0, -1], ![1, 0, -1, 1, 0]]
    K := ![KwR, KaR]
    laws := ![![1, -1, 1, 0, 0], ![0, 2, 3, 3, 2], ![0, 0, -3, -3, 0]]
    init := ![1e-7, 1e-7, 1e-7, 1, 55.5] }

lemma KwR_pos : 0 < KwR := by
  rw [KwR]
  norm_num

lemma KaR_bounds : (1e-10 : ℝ) ≤ KaR ∧ KaR ≤ 1e-9 := by
  constructor
  · have h : (10 : ℝ) ^ (-10 : ℝ) ≤ (10 : ℝ) ^ (-9.26 : ℝ) :=
      (Real.rpow_le_rpow_left_iff (by norm_num)).mpr (by norm_num)
    calc (1e-10 : ℝ) = (10 : ℝ) ^ (-10 : ℤ) := by norm_num
    _ = (10 : ℝ) ^ (-10 : ℝ) := by
        rw [← Real.rpow_intCast]
        norm_num
    _ ≤ KaR := h
  · have h : (10 : ℝ) ^ (-9.26 : ℝ) ≤ (10 : ℝ) ^ (-9 : ℝ) :=
      (Real.rpow_le_rpow_left_iff (by norm_num)).mpr (by norm_num)
    calc KaR ≤ (10 : ℝ) ^ (-9 : ℝ) := h
    _ = (10 : ℝ) ^ (-9 : ℤ) := by
        rw [← Real.rpow_intCast]
        norm_num
    _ = (1e-9 : ℝ) := by norm_num

lemma KaR_pos : 0 < KaR :=
  lt_of_lt_of_le (by norm_num) KaR_bounds.1

lemma ammoniaR_K_pos : ∀ r, 0 < ammoniaR.K r := by
  intro r
  fin_cases r <;>
    simp only [ammoniaR, Fin.mk_zero, Fin.mk_one, Matrix.cons_val_zero, Matrix.cons_val_one,
      Matrix.head_cons]
  · exact KwR_pos
  · exact KaR_pos

/-- The five equations an exact root of the ammonia identity-transform
residual satisfies: two mass-action laws and three conservation laws. -/
lemma ammonia_root_eqs (y : Fin 5 → ℝ) (h : isLinRoot ammoniaR y) :
    y 0 * y 1 = KwR * y 4 ∧
    y 0 * y 3 = KaR * y 2 ∧
    y 0 - y 1 + y 2 = 1e-7 ∧
    2 * y 1 + 3 * y 2 + 3 * y 3 + 2 * y 4 = 114.0000005 ∧
    y 2 + y 3 = 1.0000001 := by
  obtain ⟨hm, hc⟩ := h
  have h1 := hm 0
  have h2 := hm 1
  have c1 := hc 0
  have c2 := hc 1
  have c3 := hc 2
  simp only [massActionLin, consResid, ammoniaR, Fin.prod_univ_five, Fin.sum_univ_five,
    Matrix.cons_val_zero, Matrix.cons_val_one, Matrix.cons_val_two, Matrix.cons_val_three,
    Matrix.cons_val_four, Matrix.head_cons, Matrix.tail_cons] at h1 h2 c1 c2 c3
  simp only [show ((-1 : ℤ)).toNat = 0 from rfl, pow_zero, one_mul, mul_one] at h1 h2
  norm_num at h1 h2 c1 c2 c3
  refine ⟨by linarith, by linarith, by linarith, by linarith, by linarith⟩

/-! ### Claim C1: the concrete scenario

The claim: the identity-transform solve of the ammonia system returns `x`
with charge balance `x[H+] + x[NH4+] ≈ x[OH-]` and mass balance
`x[NH3] + x[NH4+] ≈ 1.0`, each within 1e-6 relative tolerance, with
success=true and sane=true.  A successful, sane solve is modelled by its
postcondition: the returned vector is an exact root of the residual
(success; spec: the solve's contract is "correctly constructing the residual
and correctly inverting the variable transform") with non-negative entries
(sane).  Relative closeness of `a` and `b` is `|a - b| ≤ tol * max a b`.

The claim is false: every root conserves the *initial* net charge
`1e-7 - 1e-7 + 1e-7 = 1e-7` exactly, while `x[OH-]` is provably at most
`0.011` at every non-negative root, so the charge-balance discrepancy
`1e-7` exceeds `1e-6 * max (x[H+]+x[NH4+]) x[OH-] ≤ 1.11e-8`. -/

def claimC1Stated : Prop :=
  ∃ y : Fin 5 → ℝ, isLinRoot ammoniaR y ∧ (∀ i, 0 ≤ y i) ∧
    |y 0 + y 2 - y 1| ≤ 1e-6 * max (y 0 + y 2) (y 1) ∧
    |y 2 + y 3 - 1| ≤ 1e-6 * max (y 2 + y 3) 1

/-- Claim C1, counterexample: no non-negative exact root of the ammonia
identity-transform system satisfies the claimed 1e-6-relative charge
balance; its net charge equals the initial 1e-7 while `[OH-]` stays below
0.011. -/
theorem claimC1_counterexample : ¬ claimC1Stated := by
  rintro ⟨y, hroot, hnn, hch, -⟩
  obtain ⟨e1, e2, l1, l2, l3⟩ := ammonia_root_eqs y hroot
  have h0 := hnn 0
  have h1 := hnn 1
  have h2 := hnn 2
  have h3 := hnn 3
  have h4 := hnn 4
  have hy4 : y 4 ≤ 57.00000025 := by linarith
  have hKw : KwR = 1e-14 / 55.5 := rfl
  have h01 : y 0 * y 1 ≤ 1.03e-14 := by
    rw [e1, hKw]
    nlinarith
  have hy3 : y 3 ≤ 1.0000001 := by linarith
  have hKa2 : KaR * (y 1 * y 2) = (y 0 * y 1) * y 3 := by
    have hy1e2 : y 1 * (y 0 * y 3) = y 1 * (KaR * y 2) := by rw [e2]
    nlinarith [hy1e2]
  have hKa12 : KaR * (y 1 * y 2) ≤ 1.031e-14 := by
    rw [hKa2]
    nlinarith [mul_nonneg h0 h1]
  have h12 : y 1 * y 2 ≤ 1.05e-4 := by
    nlinarith [KaR_bounds.1, mul_nonneg h1 h2]
  have hid : y 1 * y 1 = y 0 * y 1 + y 1 * y 2 - 1e-7 * y 1 := by
    have hy0 : y 0 = 1e-7 + y 1 - y 2 := by linarith
    rw [hy0]
    ring
  have hsq : y 1 * y 1 ≤ 1.06e-4 := by
    have := mul_nonneg (by norm_num : (0:ℝ) ≤ 1e-7) h1
    linarith [hid, h01, h12]
  have hy1 : y 1 ≤ 0.011 := by
    nlinarith [hsq, h1]
  have hmax : max (y 0 + y 2) (y 1) ≤ 0.0111 := by
    apply max_le
    · linarith
    · linarith
  have habs : y 0 + y 2 - y 1 = 1e-7 := by linarith
  rw [habs, abs_of_pos (by norm_num)] at hch
  nlinarith [hch, hmax]

/-- Claim C1 (amended): for the concrete ammonia scenario, any vector
satisfying the system's conservation equations — in particular any root the
identity-transform solve returns — satisfies mass balance
`x[NH3] + x[NH4+] ≈ 1.0` within 1e-6 relative tolerance, and its net charge
`x[H+] + x[NH4+] - x[OH-]` equals the initial net charge 1e-7 exactly, so
charge balance holds only to within the initial charge imbalance (about
2.4e-5 relative at the physical root), not within 1e-6. -/
theorem claimC1_amended (y : Fin 5 → ℝ) (h : ∀ q, consResid ammoniaR q y = 0) :
    |y 2 + y 3 - 1| ≤ 1e-6 * max (y 2 + y 3) 1 ∧ y 0 + y 2 - y 1 = 1e-7 := by
  have c1 := h 0
  have c3 := h 2
  simp only [consResid, ammoniaR, Fin.sum_univ_five,
    Matrix.cons_val_zero, Matrix.cons_val_one, Matrix.cons_val_two, Matrix.cons_val_three,
    Matrix.cons_val_four, Matrix.head_cons, Matrix.tail_cons] at c1 c3
  norm_num at c1 c3
  constructor
  · have hm : (1 : ℝ) ≤ max (y 2 + y 3) 1 := le_max_right _ _
    rw [show y 2 + y 3 - 1 = 1e-7 by linarith, abs_of_pos (by norm_num)]
    linarith
  · linarith

/-- Witness for the amended C1 at the initial concentrations, which satisfy
the conservation equations exactly. -/
theorem claimC1_amended_witness :
    (∀ q, consResid ammoniaR q ammoniaR.init = 0) ∧
    (|ammoniaR.init 2 + ammoniaR.init 3 - 1| ≤
        1e-6 * max (ammoniaR.init 2 + ammoniaR.init 3) 1 ∧
      ammoniaR.init 0 + ammoniaR.init 2 - ammoniaR.init 1 = 1e-7) := by
  have h : ∀ q, consResid ammoniaR q ammoniaR.init = 0 := by
    intro q
    simp [consResid]
  exact ⟨h, claimC1_amended ammoniaR.init h⟩

/-! ### Claim C3: the three variable transforms

Modelled from the spec: `NumSysLog` writes the mass-action laws linearly in
the log-concentrations and the conservation laws through `exp`;
`NumSysSquare` substitutes the square of the unknown for the concentration.
Solving in a transform means finding a root of the transformed residual and
inverting the transform on the result. -/

/-- Mass-action residual of equilibrium `r` in log variables `z = log y`:
the mass-action law becomes linear, `∑ stoich * z - log K`. -/
noncomputable def massActionLog {n m p : ℕ} (S : EqSysModel n m p) (r : Fin m)
    (z : Fin n → ℝ) : ℝ :=
  (∑ i, (S.stoich r i : ℝ) * z i) - Real.log (S.K r)

/-- Conservation-law residual `q` in log variables. -/
noncomputable def consResidExp {n m p : ℕ} (S : EqSysModel n m p) (q : Fin p)
    (z : Fin n → ℝ) : ℝ :=
  (∑ i, S.laws q i * Real.exp (z i)) - ∑ i, S.laws q i * S.init i

/-- `z` is an exact root of the log-transform residual (`NumSysLog`). -/
def isLogRoot {n m p : ℕ} (S : EqSysModel n m p) (z : Fin n → ℝ) : Prop :=
  (∀ r, massActionLog S r z = 0) ∧ ∀ q, consResidExp S q z = 0

/-- `s` is an exact root of the square-transform residual (`NumSysSquare`):
the concentration `s ^ 2` is substituted into the identity-transform
equations. -/
def isSqrRoot {n m p : ℕ} (S : EqSysModel n m p) (s : Fin n → ℝ) : Prop :=
  isLinRoot S (fun i => s i ^ 2)

lemma prodPow_pos {n : ℕ} (y : Fin n → ℝ) (hy : ∀ i, 0 < y i) (e : Fin n → ℕ) :
    0 < ∏ i, y i ^ e i :=
  Finset.prod_pos fun i _ => pow_pos (hy i) _

lemma log_prodPow {n : ℕ} (y : Fin n → ℝ) (hy : ∀ i, 0 < y i) (e : Fin n → ℕ) :
    Real.log (∏ i, y i ^ e i) = ∑ i, (e i : ℝ) * Real.log (y i) := by
  rw [Real.log_prod]
  · exact Finset.sum_congr rfl fun i _ => Real.log_pow _ _
  · intro i _
    exact pow_ne_zero _ (ne_of_gt (hy i))

lemma int_toNat_cast_sub (z : ℤ) :
    ((z.toNat : ℝ) - ((-z).toNat : ℝ)) = (z : ℝ) := by
  have h : (z.toNat : ℤ) - ((-z).toNat : ℤ) = z := by omega
  exact_mod_cast congrArg (fun t : ℤ => (t : ℝ)) h

lemma massActionLin_zero_iff_log {n m p : ℕ} (S : EqSysModel n m p) (r : Fin m)
    (y : Fin n → ℝ) (hy : ∀ i, 0 < y i) (hK : 0 < S.K r) :
    massActionLin S r y = 0 ↔ massActionLog S r (fun i => Real.log (y i)) = 0 := by
  have hA : 0 < ∏ i, y i ^ (S.stoich r i).toNat := prodPow_pos y hy _
  have hB : 0 < ∏ i, y i ^ (-S.stoich r i).toNat := prodPow_pos y hy _
  have hkey : massActionLog S r (fun i => Real.log (y i)) =
      Real.log (∏ i, y i ^ (S.stoich r i).toNat) -
        Real.log (S.K r * ∏ i, y i ^ (-S.stoich r i).toNat) := by
    rw [massActionLog, Real.log_mul (ne_of_gt hK) (ne_of_gt hB),
      log_prodPow y hy, log_prodPow y hy]
    have hsum : ∑ i, (S.stoich r i : ℝ) * Real.log (y i) =
        (∑ i, ((S.stoich r i).toNat : ℝ) * Real.log (y i)) -
          ∑ i, (((-S.stoich r i).toNat : ℝ)) * Real.log (y i) := by
      rw [← Finset.sum_sub_distrib]
      refine Finset.sum_congr rfl fun i _ => ?_
      rw [← sub_mul, int_toNat_cast_sub]
    rw [hsum]
    ring
  rw [massActionLin, hkey, sub_eq_zero, sub_eq_zero]
  constructor
  · intro h
    rw [h]
  · intro h
    have := congrArg Real.exp h
    rwa [Real.exp_log hA, Real.exp_log (mul_pos hK hB)] at this

lemma consResidExp_log {n m p : ℕ} (S : EqSysModel n m p) (q : Fin p)
    (y : Fin n → ℝ) (hy : ∀ i, 0 < y i) :
    consResidExp S q (fun i => Real.log (y i)) = consResid S q y := by
  rw [consResidExp, consResid]
  congr 1
  exact Finset.sum_congr rfl fun i _ => by rw [Real.exp_log (hy i)]

/-- Claim C3 (amended): for every system the three formulations are exactly
equivalent on positive concentration vectors — `y` is a root of the
identity-transform residual iff `log y` is a root of the log-transform
residual iff `sqrt y` is a root of the square-transform residual.  Hence
variants that converge to the same underlying concentration root agree
exactly (in particular within 1e-6 relative tolerance); agreement of the
returned vectors can still fail when one variant converges to a different
root of its residual (see the counterexample). -/
theorem claimC3_transform_equivalence {n m p : ℕ} (S : EqSysModel n m p)
    (y : Fin n → ℝ) (hy : ∀ i, 0 < y i) (hK : ∀ r, 0 < S.K r) :
    (isLinRoot S y ↔ isLogRoot S (fun i => Real.log (y i))) ∧
      (isLinRoot S y ↔ isSqrRoot S (fun i => Real.sqrt (y i))) := by
  constructor
  · constructor
    · rintro ⟨hm, hc⟩
      exact ⟨fun r => (massActionLin_zero_iff_log S r y hy (hK r)).mp (hm r),
        fun q => by rw [consResidExp_log S q y hy]; exact hc q⟩
    · rintro ⟨hm, hc⟩
      exact ⟨fun r => (massActionLin_zero_iff_log S r y hy (hK r)).mpr (hm r),
        fun q => by rw [← consResidExp_log S q y hy]; exact hc q⟩
  · have hfun : (fun i => Real.sqrt (y i) ^ 2) = y := by
      funext i
      exact Real.sq_sqrt (le_of_lt (hy i))
    rw [isSqrRoot, hfun]

/-- The two-species system `A ⇌ 2 B` with unit constant, one conservation
law `2[A] + [B]` and initial state `[1/2, 0]`; its identity-transform
residual has the non-negative root `(1/4, 1/2)` and also the root `(1, -1)`
with a negative concentration. -/
noncomputable def twoSpeciesSys : EqSysModel 2 1 1 :=
  { stoich := ![![-1, 2]]
    K := ![1]
    laws := ![![2, 1]]
    init := ![1/2, 0] }

/-- Claim C3, counterexample: on `twoSpeciesSys` all three variants can
converge successfully — the identity transform to the root `(1, -1)`, the
log transform to `(log (1/4), log (1/2))` and the square transform to
`(1/2, sqrt (1/2))` — yet the identity-transform concentration vector
`(1, -1)` and the log-transform concentration vector
`(exp (log (1/4)), exp (log (1/2))) = (1/4, 1/2)` disagree in the first
species by 3/4, far beyond 1e-6 relative tolerance. -/
theorem claimC3_counterexample :
    isLinRoot twoSpeciesSys ![1, -1] ∧
    isLogRoot twoSpeciesSys ![Real.log (1/4), Real.log (1/2)] ∧
    isSqrRoot twoSpeciesSys ![1/2, Real.sqrt (1/2)] ∧
    Real.exp (Real.log (1/4)) = 1/4 ∧
    ¬ (|(1 : ℝ) - 1/4| ≤ 1e-6 * max (1 : ℝ) (1/4)) := by
  refine ⟨⟨?_, ?_⟩, ⟨?_, ?_⟩, ?_, Real.exp_log (by norm_num), by rw [abs_of_pos] <;> norm_num⟩
  · intro r
    obtain rfl := Subsingleton.elim r 0
    norm_num [massActionLin, twoSpeciesSys, Fin.prod_univ_two,
      Matrix.cons_val_zero, Matrix.cons_val_one, Matrix.head_cons,
      show ((-1 : ℤ)).toNat = 0 from rfl, show ((2 : ℤ)).toNat = 2 from rfl,
      show ((1 : ℤ)).toNat = 1 from rfl, show ((-2 : ℤ)).toNat = 0 from rfl]
  · intro q
    obtain rfl := Subsingleton.elim q 0
    norm_num [consResid, twoSpeciesSys, Fin.sum_univ_two,
      Matrix.cons_val_zero, Matrix.cons_val_one, Matrix.head_cons]
  · intro r
    obtain rfl := Subsingleton.elim r 0
    simp only [massActionLog, twoSpeciesSys, Fin.sum_univ_two,
      Matrix.cons_val_zero, Matrix.cons_val_one, Matrix.head_cons]
    rw [show ((1:ℝ)/4) = (1/2)^2 by norm_num, Real.log_pow, Real.log_one]
    push_cast
    ring
  · intro q
    obtain rfl := Subsingleton.elim q 0
    simp only [consResidExp, twoSpeciesSys, Fin.sum_univ_two,
      Matrix.cons_val_zero, Matrix.cons_val_one, Matrix.head_cons]
    rw [Real.exp_log (by norm_num : (0:ℝ) < 1/4), Real.exp_log (by norm_num : (0:ℝ) < 1/2)]
    norm_num
  · have hfun : (fun i => (![(1:ℝ)/2, Real.sqrt (1/2)] : Fin 2 → ℝ) i ^ 2) =
        (![1/4, 1/2] : Fin 2 → ℝ) := by
      funext i
      fin_cases i <;>
        simp only [Fin.mk_zero, Fin.mk_one, Matrix.cons_val_zero, Matrix.cons_val_one,
          Matrix.head_cons]
      · norm_num
      · rw [Real.sq_sqrt (by norm_num : (0:ℝ) ≤ 1/2)]
    rw [isSqrRoot, hfun]
    constructor
    · intro r
      obtain rfl := Subsingleton.elim r 0
      norm_num [massActionLin, twoSpeciesSys, Fin.prod_univ_two,
        Matrix.cons_val_zero, Matrix.cons_val_one, Matrix.head_cons,
        show ((-1 : ℤ)).toNat = 0 from rfl, show ((2 : ℤ)).toNat = 2 from rfl,
        show ((1 : ℤ)).toNat = 1 from rfl, show ((-2 : ℤ)).toNat = 0 from rfl]
    · intro q
      obtain rfl := Subsingleton.elim q 0
      norm_num [consResid, twoSpeciesSys, Fin.sum_univ_two,
        Matrix.cons_val_zero, Matrix.cons_val_one, Matrix.head_cons]

/-- Witness for the C3 transform equivalence at the positive root
`(1/4, 1/2)` of `twoSpeciesSys`. -/
theorem claimC3_transform_equivalence_witness :
    (∀ i, 0 < (![(1:ℝ)/4, 1/2] : Fin 2 → ℝ) i) ∧ (∀ r, 0 < twoSpeciesSys.K r) ∧
    ((isLinRoot twoSpeciesSys ![1/4, 1/2] ↔
        isLogRoot twoSpeciesSys (fun i => Real.log ((![(1:ℝ)/4, 1/2] : Fin 2 → ℝ) i))) ∧
      (isLinRoot twoSpeciesSys ![1/4, 1/2] ↔
        isSqrRoot twoSpeciesSys (fun i => Real.sqrt ((![(1:ℝ)/4, 1/2] : Fin 2 → ℝ) i)))) := by
  have hy : ∀ i, 0 < (![(1:ℝ)/4, 1/2] : Fin 2 → ℝ) i := by
    intro i
    fin_cases i <;> norm_num
  have hK : ∀ r, 0 < twoSpeciesSys.K r := by
    intro r
    fin_cases r
    simp only [twoSpeciesSys, Matrix.cons_val_zero]
    norm_num
  exact ⟨hy, hK, claimC3_transform_equivalence twoSpeciesSys ![1/4, 1/2] hy hK⟩

/-! ### Claims C5, C6, C7: sanity check and the solve operation

Modelled from the spec: the sanity check ("a solution is sane iff every
concentration is non-negative (within a numerical tolerance) and every
conservation law evaluated at the solution matches its value at the initial
condition within tolerance.  Violations are reported per-species/per-law");
the external root-finder consumed "via a narrow contract: given a residual
function ... and an initial guess vector, returns a result vector and a
status object exposing at least a boolean success flag", non-convergence
"reported as a non-fatal status (success=false) together with the best
available iterate".  The root-finder accepts an initial guess whose residual
already meets the convergence tolerance and otherwise defers to an
unspecified search procedure. -/

/-- Per-species sanity: the concentration is non-negative within the
numerical tolerance. -/
def speciesOk {n : ℕ} (tol : ℝ) (y : Fin n → ℝ) (i : Fin n) : Prop :=
  -tol ≤ y i

/-- Per-law sanity: the conservation law holds at the solution within the
numerical tolerance. -/
def lawOk {n m p : ℕ} (S : EqSysModel n m p) (tol : ℝ) (y : Fin n → ℝ) (q : Fin p) : Prop :=
  |consResid S q y| ≤ tol

open Classical in
/-- Structured sanity diagnostic: one flag per species and one per
conservation law. -/
noncomputable def saneReport {n m p : ℕ} (S : EqSysModel n m p) (tol : ℝ)
    (y : Fin n → ℝ) : (Fin n → Bool) × (Fin p → Bool) :=
  (fun i => decide (speciesOk tol y i), fun q => decide (lawOk S tol y q))

/-- Overall sanity verdict: the conjunction of all per-species and per-law
flags of the structured diagnostic. -/
noncomputable def saneVerdict {n m p : ℕ} (S : EqSysModel n m p) (tol : ℝ)
    (y : Fin n → ℝ) : Bool :=
  (List.ofFn (saneReport S tol y).1).all id && (List.ofFn (saneReport S tol y).2).all id

/-- Claim C5: the sanity verdict is true iff every concentration is
non-negative within tolerance and every conservation law holds at the
result within tolerance; and the verdict aggregates a per-species/per-law
structured diagnostic, each of whose flags is faithful. -/
theorem claimC5_sane_verdict {n m p : ℕ} (S : EqSysModel n m p) (tol : ℝ) (y : Fin n → ℝ) :
    (saneVerdict S tol y = true ↔ (∀ i, speciesOk tol y i) ∧ ∀ q, lawOk S tol y q) ∧
    (∀ i, ((saneReport S tol y).1 i = true ↔ speciesOk tol y i)) ∧
    (∀ q, ((saneReport S tol y).2 q = true ↔ lawOk S tol y q)) := by
  refine ⟨?_, fun i => by simp [saneReport], fun q => by simp [saneReport]⟩
  rw [saneVerdict, Bool.and_eq_true, List.all_eq_true, List.all_eq_true]
  rw [List.forall_mem_ofFn_iff, List.forall_mem_ofFn_iff]
  simp [saneReport]

/-- Outcome of the external root-finder: a result vector and a success flag
(the spec's narrow contract). -/
structure SolverOutcome (n : ℕ) where
  x : Fin n → ℝ
  success : Bool

/-- Size of the identity-transform residual, used as the convergence test. -/
noncomputable def residNorm {n m p : ℕ} (S : EqSysModel n m p) (y : Fin n → ℝ) : ℝ :=
  (∑ r, |massActionLin S r y|) + ∑ q, |consResid S q y|

open Classical in
/-- The external root-finder: an initial guess already meeting the
convergence tolerance is accepted as converged; otherwise the outcome of an
unspecified iterative search is returned as is (never an exception). -/
noncomputable def rootFindModel {n m p : ℕ} (search : (Fin n → ℝ) → SolverOutcome n)
    (S : EqSysModel n m p) (tol : ℝ) (x0 : Fin n → ℝ) : SolverOutcome n :=
  if residNorm S x0 ≤ tol then ⟨x0, true⟩ else search x0

/-- The solve operation `EqSystem.root`: hand the residual and guess to the
root-finder, return the result vector, the success flag and the sanity
verdict. -/
noncomputable def eqSysRoot {n m p : ℕ} (S : EqSysModel n m p)
    (search : (Fin n → ℝ) → SolverOutcome n) (tol : ℝ) (x0 : Fin n → ℝ) :
    (Fin n → ℝ) × Bool × Bool :=
  ((rootFindModel search S tol x0).x, (rootFindModel search S tol x0).success,
    saneVerdict S tol (rootFindModel search S tol x0).x)

/-- Claim C6: when the external root-finder fails to converge, the solve
operation still returns normally — a triple carrying the best available
iterate, success=false and the sanity diagnostic — so the caller can retry
with different settings. -/
theorem claimC6_nonconvergence_nonfatal {n m p : ℕ} (S : EqSysModel n m p)
    (search : (Fin n → ℝ) → SolverOutcome n) (tol : ℝ) (x0 xb : Fin n → ℝ)
    (hfail : ¬ residNorm S x0 ≤ tol) (hsearch : search x0 = ⟨xb, false⟩) :
    eqSysRoot S search tol x0 = (xb, false, saneVerdict S tol xb) := by
  simp only [eqSysRoot, rootFindModel, if_neg hfail, hsearch]

lemma residNorm_two_one_one : residNorm twoSpeciesSys ![1, 1] = 2 := by
  norm_num [residNorm, massActionLin, consResid, twoSpeciesSys,
    Fin.sum_univ_one, Fin.prod_univ_two, Fin.sum_univ_two,
    Matrix.cons_val_zero, Matrix.cons_val_one, Matrix.head_cons,
    show ((-1 : ℤ)).toNat = 0 from rfl, show ((2 : ℤ)).toNat = 2 from rfl,
    show ((1 : ℤ)).toNat = 1 from rfl, show ((-2 : ℤ)).toNat = 0 from rfl]

/-- Witness for C6: a failing search on `twoSpeciesSys` from the guess
`(1, 1)` (whose residual size is 2, above the tolerance) yields a normal
return with success=false and the search's iterate. -/
theorem claimC6_witness :
    (¬ residNorm twoSpeciesSys ![1, 1] ≤ 1e-6) ∧
    eqSysRoot twoSpeciesSys (fun _ => ⟨![0, 0], false⟩) 1e-6 ![1, 1] =
      (![0, 0], false, saneVerdict twoSpeciesSys 1e-6 ![0, 0]) := by
  have hfail : ¬ residNorm twoSpeciesSys ![1, 1] ≤ 1e-6 := by
    rw [residNorm_two_one_one]
    norm_num
  exact ⟨hfail,
    claimC6_nonconvergence_nonfatal twoSpeciesSys (fun _ => ⟨![0, 0], false⟩) 1e-6
      ![1, 1] ![0, 0] hfail rfl⟩

/-- Claim C7: if a solve converged (success=true) — so its result meets the
convergence tolerance, whether accepted immediately or produced by a sound
search — then re-invoking the solve with that result as the new initial
guess returns the very same concentration vector and reports success=true. -/
theorem claimC7_resolve_idempotent {n m p : ℕ} (S : EqSysModel n m p)
    (search : (Fin n → ℝ) → SolverOutcome n) (tol : ℝ) (x0 : Fin n → ℝ)
    (hsound : ∀ z, (search z).success = true → residNorm S (search z).x ≤ tol)
    (hsucc : (eqSysRoot S search tol x0).2.1 = true) :
    eqSysRoot S search tol ((eqSysRoot S search tol x0).1) =
      ((eqSysRoot S search tol x0).1, true,
        saneVerdict S tol ((eqSysRoot S search tol x0).1)) := by
  have hconv : residNorm S ((eqSysRoot S search tol x0).1) ≤ tol := by
    by_cases h : residNorm S x0 ≤ tol
    · simp only [eqSysRoot, rootFindModel, if_pos h]
      exact h
    · have hx : (eqSysRoot S search tol x0).1 = (search x0).x := by
        simp only [eqSysRoot, rootFindModel, if_neg h]
      have hs : (search x0).success = true := by
        have h2 := hsucc
        simp only [eqSysRoot, rootFindModel, if_neg h] at h2
        exact h2
      rw [hx]
      exact hsound x0 hs
  simp only [eqSysRoot, rootFindModel] at hconv ⊢
  simp only [if_pos hconv]

lemma residNorm_two_root : residNorm twoSpeciesSys ![1/4, 1/2] = 0 := by
  norm_num [residNorm, massActionLin, consResid, twoSpeciesSys,
    Fin.sum_univ_one, Fin.prod_univ_two, Fin.sum_univ_two,
    Matrix.cons_val_zero, Matrix.cons_val_one, Matrix.head_cons,
    show ((-1 : ℤ)).toNat = 0 from rfl, show ((2 : ℤ)).toNat = 2 from rfl,
    show ((1 : ℤ)).toNat = 1 from rfl, show ((-2 : ℤ)).toNat = 0 from rfl]

/-- Witness for C7 on `twoSpeciesSys` at its exact root `(1/4, 1/2)`: the
first solve converges (the guess already meets the tolerance), and
re-solving from its result returns the same vector with success=true. -/
theorem claimC7_witness :
    (∀ z : Fin 2 → ℝ, ((fun _ => (⟨![0, 0], false⟩ : SolverOutcome 2)) z).success = true →
        residNorm twoSpeciesSys ((fun _ => (⟨![0, 0], false⟩ : SolverOutcome 2)) z).x ≤ 1e-6) ∧
    (eqSysRoot twoSpeciesSys (fun _ => ⟨![0, 0], false⟩) 1e-6 ![1/4, 1/2]).2.1 = true ∧
    eqSysRoot twoSpeciesSys (fun _ => ⟨![0, 0], false⟩) 1e-6
        ((eqSysRoot twoSpeciesSys (fun _ => ⟨![0, 0], false⟩) 1e-6 ![1/4, 1/2]).1) =
      ((eqSysRoot twoSpeciesSys (fun _ => ⟨![0, 0], false⟩) 1e-6 ![1/4, 1/2]).1, true,
        saneVerdict twoSpeciesSys 1e-6
          ((eqSysRoot twoSpeciesSys (fun _ => ⟨![0, 0], false⟩) 1e-6 ![1/4, 1/2]).1)) := by
  have hconv0 : residNorm twoSpeciesSys ![1/4, 1/2] ≤ 1e-6 := by
    rw [residNorm_two_root]
    norm_num
  have hsound : ∀ z : Fin 2 → ℝ,
      ((fun _ => (⟨![0, 0], false⟩ : SolverOutcome 2)) z).success = true →
        residNorm twoSpeciesSys ((fun _ => (⟨![0, 0], false⟩ : SolverOutcome 2)) z).x ≤ 1e-6 := by
    intro z h
    exact absurd h (by simp)
  have hsucc : (eqSysRoot twoSpeciesSys (fun _ => ⟨![0, 0], false⟩) 1e-6 ![1/4, 1/2]).2.1
      = true := by
    simp only [eqSysRoot, rootFindModel, if_pos hconv0]
  exact ⟨hsound, hsucc,
    claimC7_resolve_idempotent twoSpeciesSys (fun _ => ⟨![0, 0], false⟩) 1e-6 ![1/4, 1/2]
      hsound hsucc⟩

/-! ### Claim C9: the rref toggles change representation only

Modelled from the spec: the `rref_equil` / `rref_preserv` toggles
"optionally reduce this basis to row-echelon form for numerical
conditioning (a toggle affecting only representation, not the solution
set)".  Row reduction replaces the equilibrium block (stoichiometry rows
with multiplicatively recombined constants, as in the notebook's
`eqsys.stoichs_constants(rref, ...)`) and the conservation block by
invertibly recombined rows; `RecombinedBy` captures exactly such a
replacement, and the theorem shows the identity-transform solution set over
positive concentrations is unchanged. -/

/-- `S'` arises from `S` by an invertible integer recombination `M` (with
two-sided inverse `N`) of the equilibrium rows — constants recombined
multiplicatively — and an invertible real recombination `M2` (inverse `N2`)
of the conservation rows. -/
def RecombinedBy {n m p : ℕ} (S S' : EqSysModel n m p) (M N : Fin m → Fin m → ℤ)
    (M2 N2 : Fin p → Fin p → ℝ) : Prop :=
  (∀ r i, S'.stoich r i = ∑ j, M r j * S.stoich j i) ∧
  (∀ r, S'.K r = ∏ j, S.K j ^ M r j) ∧
  (∀ q i, S'.laws q i = ∑ j, M2 q j * S.laws j i) ∧
  (∀ i, S'.init i = S.init i) ∧
  (∀ a b, (∑ j, M a j * N j b) = if a = b then 1 else 0) ∧
  (∀ a b, (∑ j, N a j * M j b) = if a = b then 1 else 0) ∧
  (∀ a b, (∑ j, M2 a j * N2 j b) = if a = b then (1 : ℝ) else 0) ∧
  (∀ a b, (∑ j, N2 a j * M2 j b) = if a = b then (1 : ℝ) else 0)

lemma zpow_finset_sum (a : ℝ) (ha : a ≠ 0) {κ : Type} [DecidableEq κ] (s : Finset κ)
    (f : κ → ℤ) : a ^ (∑ j ∈ s, f j) = ∏ j ∈ s, a ^ f j := by
  induction s using Finset.induction_on with
  | empty => simp
  | insert hnotmem ih =>
    rw [Finset.sum_insert hnotmem, Finset.prod_insert hnotmem, zpow_add₀ ha, ih]

/-- The signed mass-action monomial of equilibrium `r` at `y`. -/
noncomputable def monoZ {n m p : ℕ} (S : EqSysModel n m p) (r : Fin m) (y : Fin n → ℝ) : ℝ :=
  ∏ i, y i ^ S.stoich r i

lemma massActionLin_zero_iff_monoZ {n m p : ℕ} (S : EqSysModel n m p) (r : Fin m)
    (y : Fin n → ℝ) (hy : ∀ i, 0 < y i) :
    massActionLin S r y = 0 ↔ monoZ S r y = S.K r := by
  have hyne : ∀ i, y i ≠ 0 := fun i => ne_of_gt (hy i)
  have hB : 0 < ∏ i, y i ^ (-S.stoich r i).toNat := prodPow_pos y hy _
  have hAB : monoZ S r y * (∏ i, y i ^ (-S.stoich r i).toNat) =
      ∏ i, y i ^ (S.stoich r i).toNat := by
    rw [monoZ, ← Finset.prod_mul_distrib]
    refine Finset.prod_congr rfl fun i _ => ?_
    rw [← zpow_natCast (y i) ((-S.stoich r i).toNat),
      ← zpow_natCast (y i) ((S.stoich r i).toNat), ← zpow_add₀ (hyne i)]
    congr 1
    omega
  rw [massActionLin, sub_eq_zero]
  constructor
  · intro h
    have h2 : monoZ S r y * (∏ i, y i ^ (-S.stoich r i).toNat) =
        S.K r * (∏ i, y i ^ (-S.stoich r i).toNat) := by rw [hAB, h]
    exact mul_right_cancel₀ (ne_of_gt hB) h2
  · intro h
    rw [← hAB, h]

lemma matrix_inverse_recombine {α : Type} [CommRing α] {ν : Type} {m : ℕ}
    (A A' : Fin m → ν → α) (M N : Fin m → Fin m → α)
    (hA : ∀ r i, A' r i = ∑ j, M r j * A j i)
    (hNM : ∀ a b, (∑ j, N a j * M j b) = if a = b then 1 else 0) :
    ∀ j i, A j i = ∑ t, N j t * A' t i := by
  intro j i
  calc A j i = ∑ u, (if j = u then (1 : α) else 0) * A u i := by simp [ite_mul]
    _ = ∑ u, (∑ t, N j t * M t u) * A u i := by
        refine Finset.sum_congr rfl fun u _ => ?_
        rw [hNM j u]
    _ = ∑ u, ∑ t, N j t * (M t u * A u i) := by
        refine Finset.sum_congr rfl fun u _ => ?_
        rw [Finset.sum_mul]
        exact Finset.sum_congr rfl fun t _ => by ring
    _ = ∑ t, ∑ u, N j t * (M t u * A u i) := Finset.sum_comm
    _ = ∑ t, N j t * A' t i := by
        refine Finset.sum_congr rfl fun t _ => ?_
        rw [← Finset.mul_sum, ← hA t i]

lemma constants_inverse_recombine {m : ℕ} (K K' : Fin m → ℝ) (M N : Fin m → Fin m → ℤ)
    (hKne : ∀ j, K j ≠ 0)
    (hk : ∀ r, K' r = ∏ j, K j ^ M r j)
    (hNM : ∀ a b, (∑ j, N a j * M j b) = if a = b then 1 else 0) :
    ∀ j, K j = ∏ t, K' t ^ N j t := by
  intro j
  symm
  calc ∏ t, K' t ^ N j t = ∏ t, (∏ u, K u ^ M t u) ^ N j t := by
        refine Finset.prod_congr rfl fun t _ => ?_
        rw [hk t]
    _ = ∏ t, ∏ u, K u ^ (M t u * N j t) := by
        refine Finset.prod_congr rfl fun t _ => ?_
        rw [← Finset.prod_zpow]
        exact Finset.prod_congr rfl fun u _ => (zpow_mul (K u) (M t u) (N j t)).symm
    _ = ∏ u, ∏ t, K u ^ (M t u * N j t) := Finset.prod_comm
    _ = ∏ u, K u ^ (∑ t, M t u * N j t) := by
        refine Finset.prod_congr rfl fun u _ => ?_
        rw [zpow_finset_sum (K u) (hKne u)]
    _ = ∏ u, K u ^ (if j = u then (1 : ℤ) else 0) := by
        refine Finset.prod_congr rfl fun u _ => ?_
        congr 1
        rw [← hNM j u]
        exact Finset.sum_congr rfl fun t _ => mul_comm _ _
    _ = ∏ u, (if j = u then K u else 1) := by
        refine Finset.prod_congr rfl fun u _ => ?_
        split_ifs <;> simp
    _ = K j := by simp [Finset.prod_ite_eq]

lemma mono_recombine {n m : ℕ} (A A' : Fin m → Fin n → ℤ) (K K' : Fin m → ℝ)
    (P : Fin m → Fin m → ℤ)
    (hA : ∀ r i, A' r i = ∑ j, P r j * A j i) (hK : ∀ r, K' r = ∏ j, K j ^ P r j)
    (y : Fin n → ℝ) (hy : ∀ i, 0 < y i)
    (h : ∀ j, (∏ i, y i ^ A j i) = K j) (r : Fin m) :
    (∏ i, y i ^ A' r i) = K' r := by
  have hyne : ∀ i, y i ≠ 0 := fun i => ne_of_gt (hy i)
  calc ∏ i, y i ^ A' r i = ∏ i, y i ^ (∑ j, P r j * A j i) := by
        refine Finset.prod_congr rfl fun i _ => ?_
        rw [hA r i]
    _ = ∏ i, ∏ j, y i ^ (P r j * A j i) := by
        refine Finset.prod_congr rfl fun i _ => ?_
        rw [zpow_finset_sum (y i) (hyne i)]
    _ = ∏ j, ∏ i, y i ^ (P r j * A j i) := Finset.prod_comm
    _ = ∏ j, (∏ i, y i ^ A j i) ^ P r j := by
        refine Finset.prod_congr rfl fun j _ => ?_
        rw [← Finset.prod_zpow]
        refine Finset.prod_congr rfl fun i _ => ?_
        rw [mul_comm (P r j) (A j i), zpow_mul]
    _ = ∏ j, K j ^ P r j := by
        refine Finset.prod_congr rfl fun j _ => ?_
        rw [h j]
    _ = K' r := (hK r).symm

lemma cons_recombine {n p : ℕ} (L L' : Fin p → Fin n → ℝ) (P2 : Fin p → Fin p → ℝ)
    (hL : ∀ q i, L' q i = ∑ j, P2 q j * L j i) (y w : Fin n → ℝ)
    (h : ∀ j, (∑ i, L j i * y i) = ∑ i, L j i * w i) (q : Fin p) :
    (∑ i, L' q i * y i) = ∑ i, L' q i * w i := by
  have key : ∀ v : Fin n → ℝ, (∑ i, L' q i * v i) = ∑ j, P2 q j * ∑ i, L j i * v i := by
    intro v
    calc ∑ i, L' q i * v i = ∑ i, (∑ j, P2 q j * L j i) * v i := by
          refine Finset.sum_congr rfl fun i _ => ?_
          rw [hL q i]
      _ = ∑ i, ∑ j, P2 q j * (L j i * v i) := by
          refine Finset.sum_congr rfl fun i _ => ?_
          rw [Finset.sum_mul]
          exact Finset.sum_congr rfl fun j _ => by ring
      _ = ∑ j, ∑ i, P2 q j * (L j i * v i) := Finset.sum_comm
      _ = ∑ j, P2 q j * ∑ i, L j i * v i := by
          refine Finset.sum_congr rfl fun j _ => ?_
          rw [Finset.mul_sum]
  rw [key y, key w]
  exact Finset.sum_congr rfl fun j _ => by rw [h j]

/-- Claim C9: replacing the equilibrium equations and the conservation-law
basis by any invertible row recombination — in particular by their reduced
row-echelon forms, which is what the `rref_equil` / `rref_preserv` toggles
do — changes only the representation: the identity-transform residual of
the recombined system has exactly the same roots over positive
concentration vectors, so a converged solve returns the same solution set
for every combination of the toggles. -/
theorem claimC9_rref_solution_set {n m p : ℕ} (S S' : EqSysModel n m p)
    (M N : Fin m → Fin m → ℤ) (M2 N2 : Fin p → Fin p → ℝ)
    (hrec : RecombinedBy S S' M N M2 N2) (hK : ∀ r, 0 < S.K r)
    (y : Fin n → ℝ) (hy : ∀ i, 0 < y i) :
    isLinRoot S y ↔ isLinRoot S' y := by
  obtain ⟨hstoich, hk, hlaws, hinit, hMN, hNM, hM2N2, hN2M2⟩ := hrec
  have hK' : ∀ r, 0 < S'.K r := by
    intro r
    rw [hk r]
    exact Finset.prod_pos fun j _ => zpow_pos (hK j) _
  have hstoich2 : ∀ j i, S.stoich j i = ∑ t, N j t * S'.stoich t i :=
    matrix_inverse_recombine S.stoich S'.stoich M N hstoich hNM
  have hlaws2 : ∀ q i, S.laws q i = ∑ t, N2 q t * S'.laws t i :=
    matrix_inverse_recombine S.laws S'.laws M2 N2 hlaws hN2M2
  have hk2 : ∀ j, S.K j = ∏ t, S'.K t ^ N j t :=
    constants_inverse_recombine S.K S'.K M N (fun j => ne_of_gt (hK j)) hk hNM
  have hinitSums : ∀ q : Fin p, (∑ i, S'.laws q i * S'.init i) = ∑ i, S'.laws q i * S.init i := by
    intro q
    refine Finset.sum_congr rfl fun i _ => ?_
    rw [hinit i]
  constructor
  · rintro ⟨hm, hc⟩
    refine ⟨fun r => ?_, fun q => ?_⟩
    · rw [massActionLin_zero_iff_monoZ S' r y hy, monoZ]
      exact mono_recombine S.stoich S'.stoich S.K S'.K M hstoich hk y hy
        (fun j => (massActionLin_zero_iff_monoZ S j y hy).mp (hm j)) r
    · rw [consResid, sub_eq_zero, hinitSums q]
      exact cons_recombine S.laws S'.laws M2 hlaws y S.init
        (fun j => sub_eq_zero.mp (hc j)) q
  · rintro ⟨hm, hc⟩
    refine ⟨fun r => ?_, fun q => ?_⟩
    · rw [massActionLin_zero_iff_monoZ S r y hy, monoZ]
      exact mono_recombine S'.stoich S.stoich S'.K S.K N hstoich2 hk2 y hy
        (fun j => (massActionLin_zero_iff_monoZ S' j y hy).mp (hm j)) r
    · rw [consResid, sub_eq_zero]
      exact cons_recombine S'.laws S.laws N2 hlaws2 y S.init
        (fun j => by rw [← hinitSums j]; exact sub_eq_zero.mp (hc j)) q

/-- The ammonia system after row-reducing the equilibrium block: the
reduced rows `[1,0,-1,1,0]`, `[0,1,1,-1,-1]` with the multiplicatively
recombined constants `Ka` and `Kw/Ka` (conservation block unchanged). -/
noncomputable def ammoniaRref : EqSysModel 5 2 3 :=
  { stoich := ![![1, 0, -1, 1, 0], ![0, 1, 1, -1, -1]]
    K := ![KaR, KwR * KaR⁻¹]
    laws := ammoniaR.laws
    init := ammoniaR.init }

/-- Witness for C9: the row-reduced ammonia system is an invertible
recombination of the original one, and the solution sets over positive
concentrations coincide (instantiated at the all-ones vector). -/
theorem claimC9_witness :
    (RecombinedBy ammoniaR ammoniaRref ![![0, 1], ![1, -1]] ![![1, 1], ![1, 0]]
        (fun a b => if a = b then (1 : ℝ) else 0) (fun a b => if a = b then (1 : ℝ) else 0)) ∧
    (∀ r, 0 < ammoniaR.K r) ∧ (∀ i : Fin 5, 0 < (fun _ : Fin 5 => (1 : ℝ)) i) ∧
    (isLinRoot ammoniaR (fun _ => 1) ↔ isLinRoot ammoniaRref (fun _ => 1)) := by
  have hrec : RecombinedBy ammoniaR ammoniaRref ![![0, 1], ![1, -1]] ![![1, 1], ![1, 0]]
      (fun a b => if a = b then (1 : ℝ) else 0) (fun a b => if a = b then (1 : ℝ) else 0) := by
    refine ⟨by decide, ?_, ?_, fun i => rfl, by decide, by decide, ?_, ?_⟩
    · intro r
      fin_cases r <;>
        simp [ammoniaR, ammoniaRref, Fin.prod_univ_two, Matrix.cons_val_zero,
          Matrix.cons_val_one, Matrix.head_cons]
    · intro q i
      simp [ite_mul, ammoniaRref]
    · intro a b
      simp [ite_mul, Finset.sum_ite_eq]
    · intro a b
      simp [ite_mul, Finset.sum_ite_eq]
  have hy : ∀ i : Fin 5, 0 < (fun _ : Fin 5 => (1 : ℝ)) i := fun i => one_pos
  exact ⟨hrec, ammoniaR_K_pos, hy,
    claimC9_rref_solution_set ammoniaR ammoniaRref ![![0, 1], ![1, -1]] ![![1, 1], ![1, 0]]
      (fun a b => if a = b then (1 : ℝ) else 0) (fun a b => if a = b then (1 : ℝ) else 0)
      hrec ammoniaR_K_pos (fun _ => 1) hy⟩

/-! ### Claim C4: log-transform result vs identity-transform result

In the exact-real embedding the claim reduces to: the exponential of any
log-transform root and any sane (non-negative) identity-transform root of
the ammonia system coincide, because the non-negative root of the ammonia
system is unique.  The uniqueness proof follows the chemistry: by the
conservation laws `[NH4+]` is increasing and `[OH-]` decreasing in `[H+]`,
so the charge law pins `[H+]` down. -/

lemma isLogRoot_exp_isLinRoot {n m p : ℕ} (S : EqSysModel n m p) (z : Fin n → ℝ)
    (hK : ∀ r, 0 < S.K r) (h : isLogRoot S z) :
    isLinRoot S (fun i => Real.exp (z i)) := by
  have hpos : ∀ i, 0 < Real.exp (z i) := fun i => Real.exp_pos _
  have hfun : (fun i => Real.log (Real.exp (z i))) = z := funext fun i => Real.log_exp (z i)
  constructor
  · intro r
    apply (massActionLin_zero_iff_log S r _ hpos (hK r)).mpr
    rw [hfun]
    exact h.1 r
  · intro q
    rw [← consResidExp_log S q _ hpos, hfun]
    exact h.2 q

/-- The working identities of a non-negative ammonia root: `[OH-]` and
`[NH4+]` as functions of `[H+]`, positivity of `[OH-]`, the charge law, and
the elimination of `[NH3]` and `[H2O]`. -/
lemma ammonia_aux_identities (y : Fin 5 → ℝ) (h : isLinRoot ammoniaR y)
    (hnn : ∀ i, 0 ≤ y i) :
    y 1 * (y 0 + KwR) = KwR * 55.5000001 ∧
    y 2 * (KaR + y 0) = y 0 * 1.0000001 ∧
    0 < y 1 ∧
    y 0 - y 1 + y 2 = 1e-7 ∧
    y 3 = 1.0000001 - y 2 ∧
    y 4 = 55.5000001 - y 1 := by
  obtain ⟨e1, e2, e3, e4, e5⟩ := ammonia_root_eqs y h
  have hy4 : y 4 = 55.5000001 - y 1 := by linarith
  have hy3 : y 3 = 1.0000001 - y 2 := by linarith
  have iy1 : y 1 * (y 0 + KwR) = KwR * 55.5000001 := by
    rw [hy4] at e1
    linear_combination e1
  have iy2 : y 2 * (KaR + y 0) = y 0 * 1.0000001 := by
    rw [hy3] at e2
    linear_combination -e2
  have hy1pos : 0 < y 1 := by
    nlinarith [iy1, KwR_pos, hnn 0]
  exact ⟨iy1, iy2, hy1pos, e3, hy3, hy4⟩

/-- Monotonicity core of the uniqueness proof: two non-negative roots cannot
have strictly ordered `[H+]`. -/
lemma ammonia_y0_not_lt (y z : Fin 5 → ℝ)
    (iy1 : y 1 * (y 0 + KwR) = KwR * 55.5000001)
    (iy2 : y 2 * (KaR + y 0) = y 0 * 1.0000001)
    (ey3 : y 0 - y 1 + y 2 = 1e-7)
    (iz1 : z 1 * (z 0 + KwR) = KwR * 55.5000001)
    (iz2 : z 2 * (KaR + z 0) = z 0 * 1.0000001)
    (hz1pos : 0 < z 1)
    (ez3 : z 0 - z 1 + z 2 = 1e-7)
    (hy0 : 0 ≤ y 0) (hz0 : 0 ≤ z 0) :
    ¬ (y 0 < z 0) := by
  intro hlt
  have key2 : (z 2 - y 2) * ((KaR + y 0) * (KaR + z 0)) = 1.0000001 * KaR * (z 0 - y 0) := by
    linear_combination (KaR + y 0) * iz2 - (KaR + z 0) * iy2
  have hP : 0 < (KaR + y 0) * (KaR + z 0) :=
    mul_pos (by linarith [KaR_pos]) (by linarith [KaR_pos])
  have hQ : 0 < 1.0000001 * KaR * (z 0 - y 0) :=
    mul_pos (mul_pos (by norm_num) KaR_pos) (by linarith)
  have h2lt : y 2 < z 2 := by
    nlinarith [key2, hP, hQ]
  have key1 : (y 1 - z 1) * (y 0 + KwR) = z 1 * (z 0 - y 0) := by
    linear_combination iy1 - iz1
  have hP1 : 0 < y 0 + KwR := by linarith [KwR_pos]
  have hQ1 : 0 < z 1 * (z 0 - y 0) := mul_pos hz1pos (by linarith)
  have h1gt : z 1 < y 1 := by
    nlinarith [key1, hP1, hQ1]
  linarith

/-- The non-negative root of the ammonia identity-transform system is
unique. -/
lemma ammonia_root_unique (y z : Fin 5 → ℝ)
    (hy : isLinRoot ammoniaR y) (hynn : ∀ i, 0 ≤ y i)
    (hz : isLinRoot ammoniaR z) (hznn : ∀ i, 0 ≤ z i) :
    ∀ i, y i = z i := by
  obtain ⟨iy1, iy2, hy1pos, ey3, hyy3, hyy4⟩ := ammonia_aux_identities y hy hynn
  obtain ⟨iz1, iz2, hz1pos, ez3, hzz3, hzz4⟩ := ammonia_aux_identities z hz hznn
  have hle1 : z 0 ≤ y 0 := not_lt.mp
    (ammonia_y0_not_lt y z iy1 iy2 ey3 iz1 iz2 hz1pos ez3 (hynn 0) (hznn 0))
  have hle2 : y 0 ≤ z 0 := not_lt.mp
    (ammonia_y0_not_lt z y iz1 iz2 ez3 iy1 iy2 hy1pos ey3 (hznn 0) (hynn 0))
  have h00 : y 0 = z 0 := le_antisymm hle2 hle1
  have hden1 : z 0 + KwR ≠ 0 := by
    have := KwR_pos
    have := hznn 0
    positivity
  have hden2 : KaR + z 0 ≠ 0 := by
    have := KaR_pos
    have := hznn 0
    positivity
  have h11 : y 1 = z 1 := by
    rw [h00] at iy1
    rw [← iz1] at iy1
    exact mul_right_cancel₀ hden1 iy1
  have h22 : y 2 = z 2 := by
    rw [h00] at iy2
    rw [← iz2] at iy2
    exact mul_right_cancel₀ hden2 iy2
  have h33 : y 3 = z 3 := by rw [hyy3, hzz3, h22]
  have h44 : y 4 = z 4 := by rw [hyy4, hzz4, h11]
  intro i
  fin_cases i
  exacts [h00, h11, h22, h33, h44]

/-- Claim C4: for the concrete ammonia scenario, the concentration vector
produced by the log-transform solve and the (sane) identity-transform
result never differ by 1e-8 or more in any species: in exact arithmetic the
two formulations share the unique non-negative root, so the difference is
zero. -/
theorem claimC4_log_identity_agree :
    ¬ ∃ (y z : Fin 5 → ℝ) (i : Fin 5), isLinRoot ammoniaR y ∧ (∀ j, 0 ≤ y j) ∧
        isLogRoot ammoniaR z ∧ 1e-8 ≤ |y i - Real.exp (z i)| := by
  rintro ⟨y, z, i, hy, hynn, hz, habs⟩
  have hw : isLinRoot ammoniaR (fun j => Real.exp (z j)) :=
    isLogRoot_exp_isLinRoot ammoniaR z ammoniaR_K_pos hz
  have hwnn : ∀ j, 0 ≤ (fun j => Real.exp (z j)) j := fun j => le_of_lt (Real.exp_pos _)
  have heq := ammonia_root_unique y (fun j => Real.exp (z j)) hy hynn hw hwnn
  have hzero : y i - Real.exp (z i) = 0 := by
    have := heq i
    simpa using sub_eq_zero.mpr this
  rw [hzero] at habs
  norm_num at habs

end ChempyAmmonia
